import Mathlib

/-
Shallow embedding of the scoring core of the Career-Guide-Logic repository:
`CJL-PRO/engine.py` and `CJL-PRO/run.py` (namespace `CareerGuide.Engine`)
and the scoring variant `CJL/scoring.py` (namespace `CareerGuide.Scoring`).

Python floats are modelled as real numbers.  CPython `math.exp` raises
`OverflowError` when the mathematical result exceeds the largest double;
this is modelled by `pyExp`, which returns `none` exactly where CPython
raises.  Python `round(x, 2)` rounds to the nearest hundredth with ties
broken to even, modelled by `pyRound`/`round2`.  Python dicts are modelled
as association lists in insertion order with distinct keys; `d.get(k, v)`
is `dget`, and dict/set membership tests use list membership.
-/

namespace CareerGuide

/-- The argument threshold above which CPython `math.exp` raises
`OverflowError`: `log(DBL_MAX)` is about `709.7827128933840`.  Only which
side of the cutoff a concrete argument falls on matters to the theorems
below, never its exact transcendental value. -/
noncomputable def expBound : ℝ := 709.782712893384

/-- Model of CPython `math.exp`: `none` models the `OverflowError` raised
when the result would exceed the largest double. -/
noncomputable def pyExp (x : ℝ) : Option ℝ :=
  if expBound < x then none else some (Real.exp x)

/-- Round to the nearest integer with ties broken to even, the rule of
Python `round`.  Off midpoints it agrees with `round`. -/
noncomputable def pyRound (x : ℝ) : ℤ :=
  if Int.fract x = 1 / 2 then (if Even ⌊x⌋ then ⌊x⌋ else ⌊x⌋ + 1) else round x

/-- Python `round(x, 2)`. -/
noncomputable def round2 (x : ℝ) : ℝ := (pyRound (x * 100) : ℝ) / 100

/-- Python `d.get(k, d0)` on a dict modelled as an association list. -/
def dget {β : Type} : List (String × β) → String → β → β
  | [], _, d0 => d0
  | (k₀, v) :: rest, k, d0 => if k₀ = k then v else dget rest k d0

namespace Engine

/-- `engine.TRAIT_KEYS`. -/
def TRAIT_KEYS : List String := ["apt", "O", "C", "E", "A", "stab", "R", "I", "Art"]

/-- `engine.empty_traits`. -/
noncomputable def empty_traits : List (String × ℝ) := TRAIT_KEYS.map fun k => (k, 0)

/-- `engine.LIKERT_MAP`. -/
def LIKERT_MAP : List (String × ℤ) := [("A", 2), ("B", 1), ("C", 0), ("D", -1), ("E", -2)]

/-- The delta of `engine.apply_answer`: `LIKERT_MAP.get(answer.upper(), 0)`. -/
def likertDelta (answer : String) : ℤ := dget LIKERT_MAP answer.toUpper 0

/-- A question record: the fields of the Python question dict that the
engine reads, namely `q["id"]` and `q.get("traits", {})`. -/
structure Question where
  id : ℕ
  traits : List (String × ℝ)

/-- Body of the `for trait, weight in question.get("traits", {}).items()`
loop of `engine.apply_answer`: `updated[trait] += c` when
`trait in updated`, otherwise no change. -/
noncomputable def applyStep (updated : List (String × ℝ)) (t : String) (c : ℝ) :
    List (String × ℝ) :=
  if t ∈ updated.map Prod.fst then
    updated.map fun kv => if kv.1 = t then (kv.1, kv.2 + c) else kv
  else updated

/-- `engine.apply_answer`: adds `delta * weight` to each trait the question
declares, skipping trait keys not already present; returns a new trait
vector (the embedding is pure, so the argument vector is untouched). -/
noncomputable def apply_answer (traits : List (String × ℝ)) (q : Question)
    (answer : String) : List (String × ℝ) :=
  q.traits.foldl (fun updated tw => applyStep updated tw.1 ((likertDelta answer : ℝ) * tw.2)) traits

/-- `engine.normalise_traits`: clamp `(v + bound) / (2 * bound)` to
`[0, 1]`, with `bound = max (n_questions * max_weight * 2) 1`.  The Python
default `max_weight = 2.0` is passed explicitly by callers of this model. -/
noncomputable def normalise_traits (raw : List (String × ℝ)) (n_questions : ℕ)
    (max_weight : ℝ) : List (String × ℝ) :=
  let bound : ℝ := max ((n_questions : ℝ) * max_weight * 2) 1
  raw.map fun kv => (kv.1, max 0 (min 1 ((kv.2 + bound) / (2 * bound))))

/-- `engine._sigmoid`, including its `except OverflowError` handler. -/
noncomputable def sigmoid (x : ℝ) (sharpness : ℝ) : ℝ :=
  match pyExp (-sharpness * (x - 0.5)) with
  | some e => 1 / (1 + e)
  | none => if x < 0.5 then 0 else 1

/-- The `exp_vals` dict of `engine._softmax`; `none` is the `float("inf")`
stored when `math.exp` overflows. -/
noncomputable def expVals (scores : List (String × ℝ)) (temperature : ℝ) :
    List (String × Option ℝ) :=
  scores.map fun kv => (kv.1, pyExp (kv.2 * temperature))

/-- The `inf_keys` list of `engine._softmax`. -/
def infKeys (ev : List (String × Option ℝ)) : List String :=
  (ev.filter fun kv => kv.2.isNone).map Prod.fst

/-- `engine._softmax`: temperature softmax rounded to two decimals; keys
whose exponential overflowed split 100 equally and all others get 0.
Python computes `total = sum(exp_vals.values()) or 1.0` before the
`inf_keys` test; `total` is unused on the overflow branch, so summing
only the finite entries is observationally identical. -/
noncomputable def softmax (scores : List (String × ℝ)) (temperature : ℝ) :
    List (String × ℝ) :=
  let ev := expVals scores temperature
  let total0 := (ev.map fun kv => kv.2.getD 0).sum
  let total := if total0 = 0 then 1 else total0
  if infKeys ev ≠ [] then
    scores.map fun kv => (kv.1, if kv.1 ∈ infKeys ev then 100 / ((infKeys ev).length : ℝ) else 0)
  else
    ev.map fun kv => (kv.1, round2 (kv.2.getD 0 / total * 100))

/-- A taxonomy node: the `trait_weights` field read by `engine.score_nodes`. -/
structure Node where
  trait_weights : List (String × ℝ)

/-- `engine.score_nodes`: per-node dot product against the normalized trait
vector (missing traits read as 0.5), sigmoid with the Python default
sharpness 10, then softmax with the Python default temperature 4. -/
noncomputable def score_nodes (nodes : List (String × Node))
    (norm_traits : List (String × ℝ)) : List (String × ℝ) :=
  let activations := nodes.map fun nc =>
    (nc.1, sigmoid ((nc.2.trait_weights.map fun tw => tw.2 * dget norm_traits tw.1 0.5).sum) 10)
  softmax activations 4

/-- `run.ranked_nodes`: `sorted(items, key=lambda x: x[1], reverse=True)`.
Python sorting is stable and `reverse=True` keeps ties in their original
order, which is exactly stable `mergeSort` under the reversed comparison
`snd b ≤ snd a`. -/
noncomputable def ranked_nodes (probs : List (String × ℝ)) (taxonomy : String → Node) :
    List (String × ℝ × Node) :=
  (probs.map fun np => (np.1, np.2, taxonomy np.1)).mergeSort fun a b =>
    decide (b.2.1 ≤ a.2.1)

/-- The informativeness heuristic of `engine.select_questions`. -/
noncomputable def informativeness (norm_traits : List (String × ℝ)) (q : Question) : ℝ :=
  (q.traits.map fun tw => (1 - |dget norm_traits tw.1 0.5 - 0.5| * 2) * tw.2).sum

/-- `engine.select_questions`.  `shuffle` stands for `random.shuffle`; the
theorems below assume only that it permutes its input.  A `none` or empty
`norm_traits` is falsy in Python, taking the unbiased branch. -/
noncomputable def select_questions (shuffle : List Question → List Question)
    (pool : List Question) (n : ℕ) (used_ids : List ℕ)
    (norm_traits : Option (List (String × ℝ))) : List Question :=
  let available := pool.filter fun q => decide (q.id ∉ used_ids)
  match norm_traits with
  | some nt =>
      if nt = [] then (shuffle available).take n
      else
        let ranked := available.mergeSort fun a b =>
          decide (informativeness nt b ≤ informativeness nt a)
        let top := ranked.take (min (2 * n) ranked.length)
        (shuffle top).take n
  | none => (shuffle available).take n

/-- Trait vectors reachable from `empty_traits` by the two engine
operations that produce trait vectors. -/
inductive Reachable : List (String × ℝ) → Prop
  | base : Reachable empty_traits
  | applyA (q : Question) (answer : String) {tv : List (String × ℝ)} :
      Reachable tv → Reachable (apply_answer tv q answer)
  | normA (n : ℕ) (mw : ℝ) {tv : List (String × ℝ)} :
      Reachable tv → Reachable (normalise_traits tv n mw)

end Engine

namespace Scoring

/-- `scoring._sigmoid` (sharpness 12): it has no `OverflowError` handler,
so the result is `none` exactly where CPython raises. -/
noncomputable def sigmoid (x : ℝ) : Option ℝ :=
  (pyExp (-12 * (x - 0.5))).map fun e => 1 / (1 + e)

/-- `scoring._softmax` (temperature 5): it has no `OverflowError` handler,
so if any exponential overflows the dict comprehension raises, modelled as
`none`; otherwise `round(v / total * 100, 2)` per key with
`total = sum(exp_vals.values()) or 1.0`. -/
noncomputable def softmax (values : List (String × ℝ)) : Option (List (String × ℝ)) :=
  if values.all fun kv => (pyExp (kv.2 * 5)).isSome then
    let ev := values.map fun kv => (kv.1, (pyExp (kv.2 * 5)).getD 0)
    let total0 := (ev.map fun kv => kv.2).sum
    let total := if total0 = 0 then 1 else total0
    some (ev.map fun kv => (kv.1, round2 (kv.2 / total * 100)))
  else none

end Scoring

/-
Basic facts about the rounding model.
-/

theorem pyRound_eq {y : ℝ} {m : ℤ} (h1 : (m : ℝ) - 1 / 2 < y) (h2 : y < (m : ℝ) + 1 / 2) :
    pyRound y = m := by
  have hfr : Int.fract y ≠ 1 / 2 := by
    intro hfr
    have hy : y = (⌊y⌋ : ℝ) + 1 / 2 := by
      have := Int.self_sub_floor y
      rw [hfr] at this
      linarith
    rw [hy] at h1 h2
    have hl : (m : ℝ) - 1 < (⌊y⌋ : ℝ) := by linarith
    have hr : (⌊y⌋ : ℝ) < (m : ℝ) := by linarith
    have hl' : m - 1 < ⌊y⌋ := by exact_mod_cast hl
    have hr' : ⌊y⌋ < m := by exact_mod_cast hr
    omega
  rw [pyRound, if_neg hfr, round_eq]
  refine Int.floor_eq_iff.mpr ⟨by linarith, by linarith⟩

theorem abs_pyRound_sub (y : ℝ) : |(pyRound y : ℝ) - y| ≤ 1 / 2 := by
  rw [pyRound]
  split
  · next hfr =>
    have hy : y = (⌊y⌋ : ℝ) + 1 / 2 := by
      have := Int.self_sub_floor y
      rw [hfr] at this
      linarith
    split
    · rw [hy]; rw [abs_le]; constructor <;> norm_num
    · rw [hy]; push_cast; rw [abs_le]; constructor <;> norm_num
  · rw [abs_sub_comm]; exact abs_sub_round y

theorem pyRound_nonneg {y : ℝ} (h : 0 ≤ y) : 0 ≤ pyRound y := by
  rw [pyRound]
  have hfl : (0 : ℤ) ≤ ⌊y⌋ := Int.floor_nonneg.mpr h
  split
  · split
    · exact hfl
    · omega
  · rw [round_eq]
    exact Int.floor_nonneg.mpr (by linarith)

theorem round2_eq {x : ℝ} {m : ℤ} (h1 : (m : ℝ) - 1 / 2 < x * 100) (h2 : x * 100 < (m : ℝ) + 1 / 2) :
    round2 x = (m : ℝ) / 100 := by
  rw [round2, pyRound_eq h1 h2]

theorem abs_round2_sub (x : ℝ) : |round2 x - x| ≤ 1 / 200 := by
  rw [round2]
  have h := abs_pyRound_sub (x * 100)
  have : (pyRound (x * 100) : ℝ) / 100 - x = ((pyRound (x * 100) : ℝ) - x * 100) / 100 := by
    ring
  rw [this, abs_div]
  rw [show |(100 : ℝ)| = 100 by norm_num]
  linarith

theorem round2_nonneg {x : ℝ} (h : 0 ≤ x) : 0 ≤ round2 x := by
  rw [round2]
  have := pyRound_nonneg (by linarith : (0 : ℝ) ≤ x * 100)
  positivity

namespace Engine

/-- Claim C4: for every raw trait mapping, every `n_answered` (including 0)
and every `max_abs_weight`, `normalise_traits` computes
`bound = max (n_answered * max_abs_weight * 2) 1` and maps each raw value
`v` to `clamp ((v + bound) / (2 * bound)) 0 1`, so every output value lies
in `[0, 1]` regardless of input magnitude. -/
theorem c4_normalise_formula_and_bounds (raw : List (String × ℝ)) (n : ℕ) (mw : ℝ) :
    normalise_traits raw n mw = raw.map (fun kv => (kv.1,
      max 0 (min 1 ((kv.2 + max ((n : ℝ) * mw * 2) 1) / (2 * max ((n : ℝ) * mw * 2) 1))))) ∧
    ∀ kv ∈ normalise_traits raw n mw, 0 ≤ kv.2 ∧ kv.2 ≤ 1 := by
  constructor
  · rfl
  · intro kv hkv
    rw [normalise_traits] at hkv
    simp only [List.mem_map] at hkv
    obtain ⟨kv₀, -, rfl⟩ := hkv
    refine ⟨le_max_left _ _, ?_⟩
    exact max_le (by norm_num) (min_le_left _ _)

/-- Witness for C4 at a concrete extreme input: the raw value 1000 after
one answer with `max_weight 0` normalises to exactly 1, inside `[0, 1]`. -/
theorem c4_witness :
    0 ≤ (("apt", (1 : ℝ)) : String × ℝ).2 ∧ (("apt", (1 : ℝ)) : String × ℝ).2 ≤ 1 := by
  refine (c4_normalise_formula_and_bounds [("apt", 1000)] 1 0).2 ("apt", 1) ?_
  rw [normalise_traits]
  simp only [List.map_cons, List.map_nil, List.mem_singleton]
  have hb : max ((1 : ℕ) * (0 : ℝ) * 2) 1 = 1 := by norm_num
  rw [hb]
  norm_num

/-- Claim C7: the all-zero accumulator with `n_answered = 0` (and any
`max_abs_weight`) normalises every trait to exactly 0.5; the floor of 1.0
on the bound prevents division by zero. -/
theorem c7_empty_normalises_to_half (mw : ℝ) :
    normalise_traits empty_traits 0 mw = TRAIT_KEYS.map fun k => (k, 0.5) := by
  rw [normalise_traits, empty_traits]
  have hb : max ((0 : ℕ) * mw * 2) 1 = 1 := by
    rw [Nat.cast_zero, zero_mul, zero_mul]
    exact max_eq_right zero_le_one
  rw [hb, List.map_map]
  refine List.map_congr_left fun k _ => ?_
  simp only [Function.comp]
  norm_num

/-
Association-list lemmas about the accumulator operations.
-/

theorem applyStep_keys (updated : List (String × ℝ)) (t : String) (c : ℝ) :
    (applyStep updated t c).map Prod.fst = updated.map Prod.fst := by
  rw [applyStep]
  split
  · rw [List.map_map]
    refine List.map_congr_left fun kv _ => ?_
    by_cases h : kv.1 = t <;> simp [h]
  · rfl

theorem foldl_applyStep_keys (f : String × ℝ → ℝ) :
    ∀ (ws : List (String × ℝ)) (tv : List (String × ℝ)),
    ((ws.foldl (fun u tw => applyStep u tw.1 (f tw)) tv).map Prod.fst) = tv.map Prod.fst
  | [], _ => rfl
  | _ :: ws, tv => by
    rw [List.foldl_cons, foldl_applyStep_keys f ws, applyStep_keys]

theorem apply_answer_keys (tv : List (String × ℝ)) (q : Question) (answer : String) :
    (apply_answer tv q answer).map Prod.fst = tv.map Prod.fst :=
  foldl_applyStep_keys _ q.traits tv

theorem normalise_traits_keys (raw : List (String × ℝ)) (n : ℕ) (mw : ℝ) :
    (normalise_traits raw n mw).map Prod.fst = raw.map Prod.fst := by
  rw [normalise_traits, List.map_map]
  rfl

theorem empty_traits_keys : empty_traits.map Prod.fst = TRAIT_KEYS := by
  rw [empty_traits, List.map_map]
  exact List.map_id TRAIT_KEYS

theorem toUpper_A : ("A" : String).toUpper = "A" := by
  rw [String.toUpper, String.map_eq]
  decide

theorem likertDelta_A : likertDelta "A" = 2 := by
  rw [likertDelta, toUpper_A]
  decide

theorem mem_keys_tail {rest : List (String × ℝ)} {k t : String} {v : ℝ}
    (h : t ∈ ((k, v) :: rest).map Prod.fst) (hk : ¬k = t) : t ∈ rest.map Prod.fst := by
  rw [List.map_cons] at h
  rcases List.mem_cons.mp h with h1 | h1
  · exact absurd h1.symm hk
  · exact h1

theorem dget_mapAdd_self {t : String} (c d : ℝ) :
    ∀ {tv : List (String × ℝ)}, t ∈ tv.map Prod.fst →
    dget (tv.map fun kv => if kv.1 = t then (kv.1, kv.2 + c) else kv) t d = dget tv t d + c
  | [], h => by simp at h
  | (k, v) :: rest, h => by
    rw [List.map_cons]
    show dget ((if k = t then (k, v + c) else (k, v)) ::
        (rest.map fun kv => if kv.1 = t then (kv.1, kv.2 + c) else kv)) t d =
      dget ((k, v) :: rest) t d + c
    by_cases hk : k = t
    · rw [if_pos hk]
      simp only [dget]
      rw [if_pos hk, if_pos hk]
    · rw [if_neg hk]
      simp only [dget]
      rw [if_neg hk, if_neg hk]
      exact dget_mapAdd_self c d (mem_keys_tail h hk)

theorem dget_mapAdd_other {t t' : String} (c d : ℝ) (h : t' ≠ t) :
    ∀ (tv : List (String × ℝ)),
    dget (tv.map fun kv => if kv.1 = t then (kv.1, kv.2 + c) else kv) t' d = dget tv t' d
  | [] => rfl
  | (k, v) :: rest => by
    rw [List.map_cons]
    show dget ((if k = t then (k, v + c) else (k, v)) ::
        (rest.map fun kv => if kv.1 = t then (kv.1, kv.2 + c) else kv)) t' d =
      dget ((k, v) :: rest) t' d
    by_cases hk : k = t
    · rw [if_pos hk]
      have hne : ¬k = t' := fun e => h (e.symm.trans hk)
      simp only [dget]
      rw [if_neg hne, if_neg hne]
      exact dget_mapAdd_other c d h rest
    · rw [if_neg hk]
      simp only [dget]
      by_cases hk' : k = t'
      · rw [if_pos hk', if_pos hk']
      · rw [if_neg hk', if_neg hk']
        exact dget_mapAdd_other c d h rest

theorem dget_applyStep_self {tv : List (String × ℝ)} {t : String} (c d : ℝ)
    (h : t ∈ tv.map Prod.fst) :
    dget (applyStep tv t c) t d = dget tv t d + c := by
  rw [applyStep, if_pos h]
  exact dget_mapAdd_self c d h

theorem dget_applyStep_other (tv : List (String × ℝ)) {t t' : String} (c d : ℝ)
    (h : t' ≠ t) :
    dget (applyStep tv t c) t' d = dget tv t' d := by
  rw [applyStep]
  split
  · exact dget_mapAdd_other c d h tv
  · rfl

theorem dget_foldl_applyStep_not_mem (f : String × ℝ → ℝ) {t : String} (d : ℝ) :
    ∀ (ws : List (String × ℝ)) (tv : List (String × ℝ)), t ∉ ws.map Prod.fst →
    dget (ws.foldl (fun u tw => applyStep u tw.1 (f tw)) tv) t d = dget tv t d
  | [], _, _ => rfl
  | w :: ws, tv, h => by
    have h' : ¬t = w.1 ∧ t ∉ ws.map Prod.fst := by
      rw [List.map_cons] at h
      exact not_or.mp fun e => h (List.mem_cons.mpr e)
    rw [List.foldl_cons, dget_foldl_applyStep_not_mem f d ws (applyStep tv w.1 (f w)) h'.2]
    exact dget_applyStep_other tv _ d h'.1

theorem dget_foldl_applyStep_mem (f : String × ℝ → ℝ) {t : String} {w : ℝ} (d : ℝ) :
    ∀ (ws : List (String × ℝ)) (tv : List (String × ℝ)),
    (ws.map Prod.fst).Nodup → (t, w) ∈ ws → t ∈ tv.map Prod.fst →
    dget (ws.foldl (fun u tw => applyStep u tw.1 (f tw)) tv) t d = dget tv t d + f (t, w)
  | [], _, _, hw, _ => absurd hw (List.not_mem_nil _)
  | v :: ws, tv, hnd, hw, htv => by
    rw [List.map_cons, List.nodup_cons] at hnd
    rcases List.mem_cons.mp hw with h1 | h1
    · subst h1
      rw [List.foldl_cons, dget_foldl_applyStep_not_mem f d ws _ hnd.1]
      exact dget_applyStep_self _ d htv
    · have hne : t ≠ v.1 := by
        intro e
        exact hnd.1 (e ▸ (List.mem_map.mpr ⟨(t, w), h1, rfl⟩))
      rw [List.foldl_cons, dget_foldl_applyStep_mem f d ws (applyStep tv v.1 (f v)) hnd.2 h1
        (by rw [applyStep_keys]; exact htv)]
      rw [dget_applyStep_other tv _ d hne]

theorem dget_normalise_traits {t : String} (n : ℕ) (mw : ℝ) (d d' : ℝ) :
    ∀ (raw : List (String × ℝ)), t ∈ raw.map Prod.fst →
    dget (normalise_traits raw n mw) t d =
      max 0 (min 1 ((dget raw t d' + max ((n : ℝ) * mw * 2) 1) /
        (2 * max ((n : ℝ) * mw * 2) 1)))
  | [], h => by simp at h
  | (k, v) :: rest, h => by
    have ih := fun h' => dget_normalise_traits (t := t) n mw d d' rest h'
    rw [normalise_traits] at ih ⊢
    simp only [List.map_cons] at ih ⊢
    simp only [dget]
    by_cases hk : k = t
    · rw [if_pos hk, if_pos hk]
    · rw [if_neg hk, if_neg hk]
      exact ih (mem_keys_tail h hk)

/-- Claim C9: `apply_answer` returns a new trait vector in which
`delta * weight` has been added to each declared trait's running total
(traits the question does not declare are untouched, and the key list is
preserved); the embedding is pure, so the argument vector itself is a
retained, unmodified snapshot by construction. -/
theorem c9_apply_answer_adds (tv : List (String × ℝ)) (q : Question) (answer : String) :
    ((apply_answer tv q answer).map Prod.fst = tv.map Prod.fst) ∧
    (∀ t w, (q.traits.map Prod.fst).Nodup → (t, w) ∈ q.traits → t ∈ tv.map Prod.fst →
      dget (apply_answer tv q answer) t 0 = dget tv t 0 + (likertDelta answer : ℝ) * w) ∧
    (∀ t, t ∉ q.traits.map Prod.fst →
      dget (apply_answer tv q answer) t 0 = dget tv t 0) := by
  refine ⟨apply_answer_keys tv q answer, ?_, ?_⟩
  · intro t w hnd hw htv
    exact dget_foldl_applyStep_mem _ 0 q.traits tv hnd hw htv
  · intro t ht
    exact dget_foldl_applyStep_not_mem _ 0 q.traits tv ht

/-- Witness for C9: answering "A" (delta `+2`) on a question weighting
`apt` by 1.5 adds `likertDelta "A" * 1.5` to the `apt` total of the empty
accumulator. -/
theorem c9_witness :
    dget (apply_answer empty_traits ⟨1, [("apt", 1.5)]⟩ "A") "apt" 0 =
      dget empty_traits "apt" 0 + (likertDelta "A" : ℝ) * 1.5 := by
  refine (c9_apply_answer_adds empty_traits ⟨1, [("apt", 1.5)]⟩ "A").2.1 "apt" 1.5 ?_ ?_ ?_
  · simp
  · simp
  · rw [empty_traits_keys]
    decide

/-- Claim C10: every trait vector reachable from `empty_traits` by any
sequence of `apply_answer` and `normalise_traits` calls has key list
exactly the nine-element `TRAIT_KEYS`: `apply_answer` skips question trait
keys not already present and `normalise_traits` maps over existing keys. -/
theorem c10_reachable_keys {tv : List (String × ℝ)} (h : Reachable tv) :
    tv.map Prod.fst = TRAIT_KEYS := by
  induction h with
  | base => exact empty_traits_keys
  | applyA q answer _ ih => rw [apply_answer_keys]; exact ih
  | normA n mw _ ih => rw [normalise_traits_keys]; exact ih

/-- Witness for C10: even a question declaring the foreign trait key "zzz"
leaves the key list of the accumulator at exactly `TRAIT_KEYS`. -/
theorem c10_witness :
    (apply_answer empty_traits ⟨7, [("zzz", 3)]⟩ "A").map Prod.fst = TRAIT_KEYS :=
  c10_reachable_keys (Reachable.applyA ⟨7, [("zzz", 3)]⟩ "A" Reachable.base)

/-- Claim C6: holding everything else fixed, increasing the single
weight/delta contribution that `apply_answer` adds to a trait does not
decrease that trait's resulting normalised value: the composition of the
additive accumulation with the clamped affine normalisation is monotone
non-decreasing in the raw value. -/
theorem c6_monotone (tv : List (String × ℝ)) (t : String) (i j : ℕ) (w w' : ℝ)
    (answer : String) (n : ℕ) (mw : ℝ) (hmem : t ∈ tv.map Prod.fst)
    (hc : (likertDelta answer : ℝ) * w ≤ (likertDelta answer : ℝ) * w') :
    dget (normalise_traits (apply_answer tv ⟨i, [(t, w)]⟩ answer) n mw) t 0 ≤
    dget (normalise_traits (apply_answer tv ⟨j, [(t, w')]⟩ answer) n mw) t 0 := by
  have hkeys : ∀ (q : Question), t ∈ (apply_answer tv q answer).map Prod.fst := by
    intro q
    rw [apply_answer_keys]
    exact hmem
  rw [dget_normalise_traits n mw 0 0 _ (hkeys _), dget_normalise_traits n mw 0 0 _ (hkeys _)]
  have h1 : dget (apply_answer tv ⟨i, [(t, w)]⟩ answer) t 0 =
      dget tv t 0 + (likertDelta answer : ℝ) * w := by
    refine dget_foldl_applyStep_mem _ 0 _ tv ?_ ?_ hmem
    · simp
    · simp
  have h2 : dget (apply_answer tv ⟨j, [(t, w')]⟩ answer) t 0 =
      dget tv t 0 + (likertDelta answer : ℝ) * w' := by
    refine dget_foldl_applyStep_mem _ 0 _ tv ?_ ?_ hmem
    · simp
    · simp
  rw [h1, h2]
  have hb : (0 : ℝ) < max ((n : ℝ) * mw * 2) 1 := lt_of_lt_of_le one_pos (le_max_right _ _)
  refine max_le_max le_rfl (min_le_min le_rfl ?_)
  refine (div_le_div_iff_of_pos_right (by linarith)).mpr ?_
  linarith

/-- Witness for C6: raising the `apt` weight from 1 to 2 with answer "A"
cannot lower the normalised `apt` value on the empty accumulator. -/
theorem c6_witness :
    dget (normalise_traits (apply_answer empty_traits ⟨1, [("apt", 1)]⟩ "A") 1 2) "apt" 0 ≤
    dget (normalise_traits (apply_answer empty_traits ⟨1, [("apt", 2)]⟩ "A") 1 2) "apt" 0 := by
  refine c6_monotone empty_traits "apt" 1 1 1 2 "A" 1 2 ?_ ?_
  · rw [empty_traits_keys]
    decide
  · rw [likertDelta_A]
    norm_num

/-- Claim C5: for every question pool, requested count `n`, used-id set
and optional normalised trait vector, `select_questions` returns only
questions whose identifier is not in `used_ids`, returns at most `n`
questions, and when fewer than `n` unused questions exist it returns all
of them (as a permutation, since the result is shuffled) — on both the
uniform-random branch and the informativeness-biased branch, for any
shuffle that permutes its input. -/
theorem c5_select_contract (shuffle : List Question → List Question)
    (hs : ∀ l, (shuffle l).Perm l) (pool : List Question) (n : ℕ) (used_ids : List ℕ)
    (norm_traits : Option (List (String × ℝ))) :
    (∀ q ∈ select_questions shuffle pool n used_ids norm_traits, q.id ∉ used_ids) ∧
    (select_questions shuffle pool n used_ids norm_traits).length ≤ n ∧
    ((pool.filter fun q => decide (q.id ∉ used_ids)).length < n →
      (select_questions shuffle pool n used_ids norm_traits).Perm
        (pool.filter fun q => decide (q.id ∉ used_ids))) := by
  obtain ⟨X, hXsub, hXperm, hres⟩ :
      ∃ X : List Question,
        (∀ q ∈ X, q ∈ pool.filter fun q => decide (q.id ∉ used_ids)) ∧
        ((pool.filter fun q => decide (q.id ∉ used_ids)).length < n →
          X.Perm (pool.filter fun q => decide (q.id ∉ used_ids))) ∧
        select_questions shuffle pool n used_ids norm_traits = (shuffle X).take n := by
    match norm_traits with
    | none => exact ⟨_, fun _ h => h, fun _ => List.Perm.refl _, rfl⟩
    | some nt =>
      by_cases hnt : nt = []
      · refine ⟨_, fun _ h => h, fun _ => List.Perm.refl _, ?_⟩
        rw [select_questions, if_pos hnt]
      · set avail := pool.filter fun q => decide (q.id ∉ used_ids) with ha
        set ranked := avail.mergeSort fun a b =>
          decide (informativeness nt b ≤ informativeness nt a) with hr
        have hrp : ranked.Perm avail := List.mergeSort_perm avail _
        refine ⟨ranked.take (min (2 * n) ranked.length), ?_, ?_, ?_⟩
        · intro q hq
          exact hrp.mem_iff.mp (List.mem_of_mem_take hq)
        · intro hlen
          have hle : ranked.length ≤ 2 * n := by
            rw [hrp.length_eq]
            omega
          rw [min_eq_right hle, List.take_length]
          exact hrp
        · rw [select_questions, if_neg hnt]
  constructor
  · intro q hq
    rw [hres] at hq
    have hmem : q ∈ X := (hs X).mem_iff.mp (List.mem_of_mem_take hq)
    have := List.mem_filter.mp (hXsub q hmem)
    exact of_decide_eq_true this.2
  constructor
  · rw [hres, List.length_take]
    exact min_le_left _ _
  · intro hlen
    rw [hres]
    have hperm : (shuffle X).Perm (pool.filter fun q => decide (q.id ∉ used_ids)) :=
      (hs X).trans (hXperm hlen)
    have hlen' : (shuffle X).length ≤ n := by
      rw [hperm.length_eq]
      omega
    rw [List.take_of_length_le hlen']
    exact hperm

/-- Witness for C5: with the identity shuffle, a 2-question pool, request
5 and question 1 already used, the selection avoids id 1, returns at most
5 questions, and returns the single unused question (a permutation of the
available set, whose size 1 is below the request). -/
theorem c5_witness :
    (∀ q ∈ select_questions id [⟨1, []⟩, ⟨2, []⟩] 5 [1] none, q.id ∉ ([1] : List ℕ)) ∧
    (select_questions id [⟨1, []⟩, ⟨2, []⟩] 5 [1] none).length ≤ 5 ∧
    (([(⟨1, []⟩ : Question), ⟨2, []⟩].filter fun q => decide (q.id ∉ ([1] : List ℕ))).length < 5 →
      (select_questions id [⟨1, []⟩, ⟨2, []⟩] 5 [1] none).Perm
        ([(⟨1, []⟩ : Question), ⟨2, []⟩].filter fun q => decide (q.id ∉ ([1] : List ℕ)))) :=
  c5_select_contract id (fun l => List.Perm.refl l) [⟨1, []⟩, ⟨2, []⟩] 5 [1] none

end Engine

/-
Claims C2 and C3: overflow behaviour of the activation and of the
distribution builder in the two variants.
-/

/-- Counterexample to C2 as stated: the claim asserts that in BOTH scoring
variants the activation saturates instead of raising on overflow, but
`scoring._sigmoid` (CJL variant) has no `OverflowError` handler.  At
`x = -100` the exponent `-12 * (x - 0.5) = 1206` exceeds the `math.exp`
overflow threshold and the CJL sigmoid raises (modelled as `none`) instead
of returning the saturation value 0. -/
theorem c2_counterexample :
    expBound < -12 * ((-100 : ℝ) - 0.5) ∧ Scoring.sigmoid (-100) = none := by
  have hov : expBound < -12 * ((-100 : ℝ) - 0.5) := by rw [expBound]; norm_num
  refine ⟨hov, ?_⟩
  rw [Scoring.sigmoid, pyExp, if_pos hov]
  rfl

/-- Claim C2 amended: the PRO activation (`engine._sigmoid`) returns a
value for every real input, saturating to 0 when the exponent overflows
with `x < 0.5` and to 1 otherwise, and computing the logistic value when
there is no overflow; the CJL activation (`scoring._sigmoid`) instead
raises (returns no value) whenever its exponent overflows. -/
theorem c2_amended :
    (∀ x : ℝ, expBound < -10 * (x - 0.5) →
      Engine.sigmoid x 10 = if x < 0.5 then 0 else 1) ∧
    (∀ x : ℝ, ¬expBound < -10 * (x - 0.5) →
      Engine.sigmoid x 10 = 1 / (1 + Real.exp (-10 * (x - 0.5)))) ∧
    (∀ x : ℝ, expBound < -12 * (x - 0.5) → Scoring.sigmoid x = none) := by
  refine ⟨?_, ?_, ?_⟩
  · intro x h
    rw [Engine.sigmoid, pyExp, if_pos h]
  · intro x h
    rw [Engine.sigmoid, pyExp, if_neg h]
  · intro x h
    rw [Scoring.sigmoid, pyExp, if_pos h]
    rfl

/-- Witness for C2 amended, at the concrete inputs `x = -100` (overflow in
both variants) and `x = 0` (no overflow). -/
theorem c2_witness :
    Engine.sigmoid (-100) 10 = (if (-100 : ℝ) < 0.5 then 0 else 1) ∧
    Engine.sigmoid 0 10 = 1 / (1 + Real.exp (-10 * ((0 : ℝ) - 0.5))) ∧
    Scoring.sigmoid (-100) = none :=
  ⟨c2_amended.1 (-100) (by rw [expBound]; norm_num),
   c2_amended.2.1 0 (by rw [expBound]; norm_num),
   c2_amended.2.2 (-100) (by rw [expBound]; norm_num)⟩

/-- Counterexample to C3 as stated: the claim asserts that in BOTH scoring
variants overflowed candidates split 100 equally, but `scoring._softmax`
(CJL variant) has no `OverflowError` handler.  On the singleton activation
mapping `a := 200` the exponential `exp(200 * 5)` overflows and the CJL
softmax raises (modelled as `none`) instead of returning `a := 100`. -/
theorem c3_counterexample :
    expBound < (200 : ℝ) * 5 ∧ Scoring.softmax [("a", 200)] = none := by
  have hov : expBound < (200 : ℝ) * 5 := by rw [expBound]; norm_num
  have hnone : pyExp ((200 : ℝ) * 5) = none := by rw [pyExp, if_pos hov]
  refine ⟨hov, ?_⟩
  simp [Scoring.softmax, hnone]

/-- Claim C3 amended: in the PRO variant (`engine._softmax`), whenever at
least one temperature-scaled exponential overflows, every overflowed
candidate receives exactly `100 / (number of overflowed candidates)` and
every other candidate exactly 0, with no exception and no NaN (the model
is total on the reals); the CJL variant (`scoring._softmax`) instead
raises whenever any exponential overflows. -/
theorem c3_amended (scores : List (String × ℝ)) (T : ℝ)
    (h : Engine.infKeys (Engine.expVals scores T) ≠ []) :
    (Engine.softmax scores T = scores.map fun kv =>
      (kv.1, if kv.1 ∈ Engine.infKeys (Engine.expVals scores T)
        then 100 / ((Engine.infKeys (Engine.expVals scores T)).length : ℝ) else 0)) ∧
    (∀ values : List (String × ℝ), (∃ kv ∈ values, expBound < kv.2 * 5) →
      Scoring.softmax values = none) := by
  constructor
  · simp only [Engine.softmax]
    rw [if_pos h]
  · intro values hex
    obtain ⟨kv, hkv, hov⟩ := hex
    have hall : (values.all fun kv => (pyExp (kv.2 * 5)).isSome) = false := by
      refine List.all_eq_false.mpr ⟨kv, hkv, ?_⟩
      rw [pyExp, if_pos hov]
      simp
    simp [Scoring.softmax, hall]

/-- Witness for C3 amended: on `[a := 200, b := 0]` with temperature 4 the
exponential of `a` overflows, so the PRO softmax returns the equal-split
map, and the CJL softmax on `[a := 200]` raises. -/
theorem c3_witness :
    (Engine.softmax [("a", 200), ("b", 0)] 4 = [(("a" : String), (200 : ℝ)), ("b", 0)].map fun kv =>
      (kv.1, if kv.1 ∈ Engine.infKeys (Engine.expVals [("a", 200), ("b", 0)] 4)
        then 100 / ((Engine.infKeys (Engine.expVals [("a", 200), ("b", 0)] 4)).length : ℝ) else 0)) ∧
    Scoring.softmax [("a", 200)] = none := by
  have h800 : pyExp ((200 : ℝ) * 4) = none := by
    rw [pyExp, if_pos (by rw [expBound]; norm_num)]
  have h0 : pyExp ((0 : ℝ) * 4) = some (Real.exp ((0 : ℝ) * 4)) := by
    rw [pyExp, if_neg (by rw [expBound]; norm_num)]
  have hne : Engine.infKeys (Engine.expVals [("a", 200), ("b", 0)] 4) ≠ [] := by
    simp [Engine.infKeys, Engine.expVals, h800, h0]
  exact ⟨(c3_amended [("a", 200), ("b", 0)] 4 hne).1,
    (c3_amended [("a", 200), ("b", 0)] 4 hne).2 [("a", 200)]
      ⟨("a", 200), by simp, by rw [expBound]; norm_num⟩⟩

namespace Engine

/-
Claim C8: the ranking step.
-/

theorem softmax_keys (scores : List (String × ℝ)) (T : ℝ) :
    (softmax scores T).map Prod.fst = scores.map Prod.fst := by
  simp only [softmax]
  split
  · rw [List.map_map]
    rfl
  · rw [expVals, List.map_map, List.map_map]
    rfl

theorem score_nodes_keys (nodes : List (String × Node)) (norm_traits : List (String × ℝ)) :
    (score_nodes nodes norm_traits).map Prod.fst = nodes.map Prod.fst := by
  simp only [score_nodes]
  rw [softmax_keys, List.map_map]
  rfl

/-- Claim C8: `ranked_nodes` orders the probability mapping produced by
`score_nodes` by descending percentage; candidates with equal percentage
stay in the original insertion order (any already-descending subsequence
of the input survives as a subsequence of the output, which for a tied
pair means the input order is kept), and `score_nodes` itself preserves
the insertion order of the candidate mapping keys. -/
theorem c8_ranking_order (probs : List (String × ℝ)) (taxonomy : String → Node)
    (nodes : List (String × Node)) (norm_traits : List (String × ℝ)) :
    (ranked_nodes probs taxonomy).Pairwise (fun a b => b.2.1 ≤ a.2.1) ∧
    (ranked_nodes probs taxonomy).Perm (probs.map fun np => (np.1, np.2, taxonomy np.1)) ∧
    (∀ c : List (String × ℝ × Node), c.Pairwise (fun a b => b.2.1 ≤ a.2.1) →
      c.Sublist (probs.map fun np => (np.1, np.2, taxonomy np.1)) →
      c.Sublist (ranked_nodes probs taxonomy)) ∧
    (score_nodes nodes norm_traits).map Prod.fst = nodes.map Prod.fst := by
  have htrans : ∀ a b c : String × ℝ × Node,
      (fun a b : String × ℝ × Node => decide (b.2.1 ≤ a.2.1)) a b →
      (fun a b : String × ℝ × Node => decide (b.2.1 ≤ a.2.1)) b c →
      (fun a b : String × ℝ × Node => decide (b.2.1 ≤ a.2.1)) a c := by
    intro a b c hab hbc
    exact decide_eq_true (le_trans (of_decide_eq_true hbc) (of_decide_eq_true hab))
  have htotal : ∀ a b : String × ℝ × Node,
      ((fun a b : String × ℝ × Node => decide (b.2.1 ≤ a.2.1)) a b ||
       (fun a b : String × ℝ × Node => decide (b.2.1 ≤ a.2.1)) b a) := by
    intro a b
    simp only [Bool.or_eq_true, decide_eq_true_eq]
    exact le_total b.2.1 a.2.1
  refine ⟨?_, ?_, ?_, score_nodes_keys nodes norm_traits⟩
  · have hs := List.sorted_mergeSort htrans htotal (probs.map fun np => (np.1, np.2, taxonomy np.1))
    exact hs.imp fun h => of_decide_eq_true h
  · simp only [ranked_nodes]
    exact List.mergeSort_perm _ _
  · intro c hc hsub
    simp only [ranked_nodes]
    exact List.sublist_mergeSort htrans htotal (hc.imp fun h => decide_eq_true h) hsub

/-- Witness for C8 at a concrete tie: with two candidates both at
percentage 10, the input order itself is an already-descending sublist, so
it survives in the ranked output: the tie is broken by insertion order. -/
theorem c8_witness :
    ([("x", (10 : ℝ), Node.mk []), ("y", 10, Node.mk [])]).Sublist
      (ranked_nodes [("x", 10), ("y", 10)] fun _ => Node.mk []) := by
  refine (c8_ranking_order [("x", 10), ("y", 10)] (fun _ => Node.mk []) [] []).2.2.1
    [("x", (10 : ℝ), Node.mk []), ("y", 10, Node.mk [])] ?_ ?_
  · refine List.pairwise_cons.mpr ⟨?_, List.pairwise_singleton _ _⟩
    intro b hb
    rw [List.mem_singleton.mp hb]
  · exact List.Sublist.refl _

end Engine

/-
Claim C1: value range and sum of the distribution builder.
-/

theorem sum_map_sub_abs_le {α : Type} (ε : ℝ) (f g : α → ℝ) :
    ∀ l : List α, (∀ x ∈ l, |f x - g x| ≤ ε) →
    |(l.map f).sum - (l.map g).sum| ≤ l.length * ε
  | [], _ => by simp
  | a :: l, h => by
    have ih := sum_map_sub_abs_le ε f g l fun x hx => h x (List.mem_cons_of_mem a hx)
    have ha := h a (List.mem_cons_self a l)
    simp only [List.map_cons, List.sum_cons, List.length_cons]
    push_cast
    have hsplit : f a + (l.map f).sum - (g a + (l.map g).sum) =
        (f a - g a) + ((l.map f).sum - (l.map g).sum) := by ring
    rw [hsplit]
    calc |(f a - g a) + ((l.map f).sum - (l.map g).sum)|
        ≤ |f a - g a| + |(l.map f).sum - (l.map g).sum| := abs_add _ _
      _ ≤ ε + l.length * ε := add_le_add ha ih
      _ = ((l.length : ℝ) + 1) * ε := by ring

theorem pyExp_of_isSome {x : ℝ} (h : (pyExp x).isSome) : pyExp x = some (Real.exp x) := by
  by_cases hc : expBound < x
  · rw [pyExp, if_pos hc] at h
    simp at h
  · rw [pyExp, if_neg hc]

theorem rounded_distribution_core (l : List (String × ℝ)) (hl : l ≠ [])
    (hpos : ∀ kv ∈ l, 0 < kv.2) :
    (∀ kv ∈ l.map fun kv => (kv.1, round2 (kv.2 / (l.map fun kv => kv.2).sum * 100)), 0 ≤ kv.2) ∧
    |((l.map fun kv => (kv.1, round2 (kv.2 / (l.map fun kv => kv.2).sum * 100))).map
        Prod.snd).sum - 100| ≤ (l.length : ℝ) * (1 / 200) := by
  have hmapne : (l.map fun kv => kv.2) ≠ [] := by simpa using hl
  have hpos' : ∀ x ∈ l.map fun kv => kv.2, 0 < x := by
    intro x hx
    obtain ⟨kv, hkv, rfl⟩ := List.mem_map.mp hx
    exact hpos kv hkv
  have ht : 0 < (l.map fun kv => kv.2).sum := List.sum_pos _ hpos' hmapne
  constructor
  · intro kv hkv
    obtain ⟨kv₀, hkv₀, rfl⟩ := List.mem_map.mp hkv
    have h₀ := hpos kv₀ hkv₀
    exact round2_nonneg (by positivity)
  · rw [List.map_map]
    have hg : (l.map fun kv => kv.2 / (l.map fun kv => kv.2).sum * 100).sum = 100 := by
      have hrw : (l.map fun kv => kv.2 / (l.map fun kv => kv.2).sum * 100) =
          l.map fun kv => kv.2 * (100 / (l.map fun kv => kv.2).sum) := by
        refine List.map_congr_left fun kv _ => ?_
        ring
      rw [hrw, List.sum_map_mul_right, mul_comm, div_mul_cancel₀ _ (ne_of_gt ht)]
    have hb := sum_map_sub_abs_le (1 / 200)
      (fun kv => round2 (kv.2 / (l.map fun kv => kv.2).sum * 100))
      (fun kv => kv.2 / (l.map fun kv => kv.2).sum * 100) l
      (fun kv _ => abs_round2_sub _)
    rw [hg] at hb
    exact hb

theorem expVals_keys (scores : List (String × ℝ)) (T : ℝ) :
    (Engine.expVals scores T).map Prod.fst = scores.map Prod.fst := by
  rw [Engine.expVals, List.map_map]
  rfl

theorem sum_ite_mem (K : List String) (s : ℝ) :
    ∀ scores : List (String × ℝ),
    (scores.map fun kv => if kv.1 ∈ K then s else 0).sum =
      (((scores.map Prod.fst).filter fun k => decide (k ∈ K)).length : ℝ) * s
  | [] => by simp
  | kv :: scores => by
    have ih := sum_ite_mem K s scores
    by_cases hk : kv.1 ∈ K
    · simp only [List.map_cons, List.sum_cons, if_pos hk, List.filter_cons,
        decide_eq_true_eq, if_pos hk, List.length_cons, ih]
      push_cast
      ring
    · simp only [List.map_cons, List.sum_cons, if_neg hk, List.filter_cons,
        decide_eq_true_eq, if_neg hk, ih]
      ring

theorem filter_mem_of_sublist_nodup {K keys : List String} (hs : K.Sublist keys)
    (hnd : keys.Nodup) : keys.filter (fun k => decide (k ∈ K)) = K := by
  induction hs with
  | slnil => rfl
  | cons a hsub ih =>
    rw [List.nodup_cons] at hnd
    rw [List.filter_cons, if_neg (by
      simp only [decide_eq_true_eq]
      intro hmem
      exact hnd.1 (hsub.subset hmem))]
    exact ih hnd.2
  | cons₂ a hsub ih =>
    rename_i K' l₂
    rw [List.nodup_cons] at hnd
    rw [List.filter_cons, if_pos (by simp)]
    congr 1
    rw [List.filter_congr fun x hx => ?_]
    · exact ih hnd.2
    · simp only [decide_eq_decide, List.mem_cons]
      exact or_iff_right fun e => hnd.1 (e ▸ hx)

/-- Counterexample to C1 as stated: a 5-candidate activation mapping
(activations `log(0.20006)/4` four times and `log(0.19976)/4` once, so
the exact softmax percentages are 20.006 four times and 19.976 once)
makes every rounding go up: the returned percentages are 20.01 four times
and 19.98, summing to 100.02, outside the claimed plus-or-minus 0.01
tolerance. -/
theorem c1_counterexample :
    ¬ |((Engine.softmax [("a", Real.log 0.20006 / 4), ("b", Real.log 0.20006 / 4),
        ("c", Real.log 0.20006 / 4), ("d", Real.log 0.20006 / 4),
        ("e", Real.log 0.19976 / 4)] 4).map Prod.snd).sum - 100| ≤ 1 / 100 := by
  have h4 : (4 : ℝ) ≠ 0 := by norm_num
  have hEB : (0 : ℝ) < expBound := by rw [expBound]; norm_num
  have hp1 : pyExp (Real.log 0.20006 / 4 * 4) = some 0.20006 := by
    rw [div_mul_cancel₀ _ h4, pyExp,
      if_neg (not_lt.mpr ((Real.log_neg (by norm_num) (by norm_num)).le.trans hEB.le)),
      Real.exp_log (by norm_num)]
  have hp5 : pyExp (Real.log 0.19976 / 4 * 4) = some 0.19976 := by
    rw [div_mul_cancel₀ _ h4, pyExp,
      if_neg (not_lt.mpr ((Real.log_neg (by norm_num) (by norm_num)).le.trans hEB.le)),
      Real.exp_log (by norm_num)]
  simp only [Engine.softmax, Engine.expVals, List.map_cons, List.map_nil]
  rw [hp1, hp5]
  have hik : Engine.infKeys [(("a" : String), some (0.20006 : ℝ)), ("b", some 0.20006),
      ("c", some 0.20006), ("d", some 0.20006), ("e", some 0.19976)] = [] := by
    simp [Engine.infKeys]
  rw [if_neg fun hc => hc hik]
  have hS : [((some (0.20006 : ℝ)).getD 0), ((some (0.20006 : ℝ)).getD 0),
      ((some (0.20006 : ℝ)).getD 0), ((some (0.20006 : ℝ)).getD 0),
      ((some (0.19976 : ℝ)).getD 0)].sum = 1 := by
    norm_num [Option.getD_some]
  rw [hS, if_neg one_ne_zero]
  simp only [Option.getD_some]
  have hr1 : round2 ((0.20006 : ℝ) / 1 * 100) = ((2001 : ℤ) : ℝ) / 100 := by
    refine round2_eq ?_ ?_
    · push_cast
      norm_num
    · push_cast
      norm_num
  have hr5 : round2 ((0.19976 : ℝ) / 1 * 100) = ((1998 : ℤ) : ℝ) / 100 := by
    refine round2_eq ?_ ?_
    · push_cast
      norm_num
    · push_cast
      norm_num
  rw [hr1, hr5]
  simp only [List.map_cons, List.map_nil, List.sum_cons, List.sum_nil]
  push_cast
  norm_num
  rw [show |(1 : ℝ) / 50| = 1 / 50 from abs_of_nonneg (by norm_num)]
  norm_num

/-- Claim C1 amended: for every non-empty activation mapping (with the
distinct keys every Python dict has), both distribution builders return
only non-negative percentages, the exact pre-rounding percentages sum to
100, and the returned rounded percentages sum to 100 within
plus-or-minus `n * 0.005` where `n` is the number of candidates (each of
the `n` roundings moves its value by at most 0.005; the 0.01 tolerance of
the original claim is recovered only for `n ≤ 3`); in the CJL variant
this holds whenever the builder returns at all. -/
theorem c1_amended (scores : List (String × ℝ)) (T : ℝ) (hne : scores ≠ [])
    (hnd : (scores.map Prod.fst).Nodup) :
    (∀ kv ∈ Engine.softmax scores T, 0 ≤ kv.2) ∧
    |((Engine.softmax scores T).map Prod.snd).sum - 100| ≤ (scores.length : ℝ) * (1 / 200) ∧
    (∀ values out, values ≠ [] → Scoring.softmax values = some out →
      (∀ kv ∈ out, 0 ≤ kv.2) ∧
      |(out.map Prod.snd).sum - 100| ≤ (values.length : ℝ) * (1 / 200)) := by
  have hCJL : ∀ values out, values ≠ [] → Scoring.softmax values = some out →
      (∀ kv ∈ out, 0 ≤ kv.2) ∧
      |(out.map Prod.snd).sum - 100| ≤ (values.length : ℝ) * (1 / 200) := by
    intro values out hvne hsome
    simp only [Scoring.softmax] at hsome
    split at hsome
    · next hall =>
      have hall' := List.all_eq_true.mp hall
      have hpos : ∀ kv ∈ values.map fun kv => (kv.1, (pyExp (kv.2 * 5)).getD 0), 0 < kv.2 := by
        intro kv hkv
        obtain ⟨sv, hsv, rfl⟩ := List.mem_map.mp hkv
        rw [pyExp_of_isSome (hall' sv hsv)]
        exact Real.exp_pos _
      have hne' : (values.map fun kv => (kv.1, (pyExp (kv.2 * 5)).getD 0)) ≠ [] := by
        simpa using hvne
      have htot : 0 < ((values.map fun kv => (kv.1, (pyExp (kv.2 * 5)).getD 0)).map
          fun kv => kv.2).sum := by
        refine List.sum_pos _ ?_ (by simpa using hvne)
        intro x hx
        obtain ⟨kv, hkv, rfl⟩ := List.mem_map.mp hx
        exact hpos kv hkv
      rw [if_neg (ne_of_gt htot)] at hsome
      have hout := Option.some.inj hsome
      subst hout
      have hcore := rounded_distribution_core
        (values.map fun kv => (kv.1, (pyExp (kv.2 * 5)).getD 0)) hne' hpos
      rw [List.length_map] at hcore
      exact hcore
    · exact absurd hsome (by simp)
  have hPRO : (∀ kv ∈ Engine.softmax scores T, 0 ≤ kv.2) ∧
      |((Engine.softmax scores T).map Prod.snd).sum - 100| ≤ (scores.length : ℝ) * (1 / 200) := by
    by_cases hinf : Engine.infKeys (Engine.expVals scores T) = []
    · have hfil : ((Engine.expVals scores T).filter fun kv => kv.2.isNone) = [] := by
        rw [Engine.infKeys] at hinf
        exact List.map_eq_nil_iff.mp hinf
      have hnotnone := List.filter_eq_nil_iff.mp hfil
      have hpos : ∀ kv ∈ (Engine.expVals scores T).map fun kv => (kv.1, kv.2.getD 0), 0 < kv.2 := by
        intro kv hkv
        obtain ⟨ev1, hev1, rfl⟩ := List.mem_map.mp hkv
        obtain ⟨sv, hsv, rfl⟩ := List.mem_map.mp hev1
        by_cases hc : expBound < sv.2 * T
        · exfalso
          refine hnotnone _ hev1 ?_
          show (pyExp (sv.2 * T)).isNone = true
          rw [pyExp, if_pos hc]
          rfl
        · show 0 < (pyExp (sv.2 * T)).getD 0
          rw [pyExp, if_neg hc]
          simp only [Option.getD_some]
          exact Real.exp_pos _
      have hne' : ((Engine.expVals scores T).map fun kv => (kv.1, kv.2.getD 0)) ≠ [] := by
        simpa [Engine.expVals] using hne
      have hSS : (((Engine.expVals scores T).map fun kv => (kv.1, kv.2.getD 0)).map
          fun kv => kv.2) = (Engine.expVals scores T).map fun kv => kv.2.getD 0 := by
        rw [List.map_map]
        rfl
      have hcore := rounded_distribution_core
        ((Engine.expVals scores T).map fun kv => (kv.1, kv.2.getD 0)) hne' hpos
      rw [hSS] at hcore
      have htot : 0 < ((Engine.expVals scores T).map fun kv => kv.2.getD 0).sum := by
        refine List.sum_pos _ ?_ (by simpa [Engine.expVals] using hne)
        intro x hx
        obtain ⟨kv, hkv, rfl⟩ := List.mem_map.mp hx
        exact hpos (kv.1, kv.2.getD 0) (List.mem_map.mpr ⟨kv, hkv, rfl⟩)
      simp only [Engine.softmax]
      rw [if_neg fun hc => hc hinf, if_neg (ne_of_gt htot)]
      have hlen : (Engine.expVals scores T).length = scores.length := by
        rw [Engine.expVals, List.length_map]
      rw [List.map_map, List.length_map, hlen] at hcore
      exact hcore
    · have hinf' : Engine.infKeys (Engine.expVals scores T) ≠ [] := hinf
      have hK : (Engine.infKeys (Engine.expVals scores T)).Sublist (scores.map Prod.fst) := by
        rw [Engine.infKeys]
        have h1 : List.Sublist ((Engine.expVals scores T).filter fun kv => kv.2.isNone)
            (Engine.expVals scores T) := List.filter_sublist _
        have h2 := h1.map Prod.fst
        rw [expVals_keys] at h2
        exact h2
      have hK0 : ((Engine.infKeys (Engine.expVals scores T)).length : ℝ) ≠ 0 := by
        refine Nat.cast_ne_zero.mpr ?_
        intro h0
        exact hinf' (List.length_eq_zero.mp h0)
      simp only [Engine.softmax]
      rw [if_pos hinf']
      constructor
      · intro kv hkv
        obtain ⟨sv, hsv, rfl⟩ := List.mem_map.mp hkv
        dsimp only
        split
        · positivity
        · exact le_rfl
      · rw [List.map_map]
        show |(scores.map fun kv => if kv.1 ∈ Engine.infKeys (Engine.expVals scores T)
            then 100 / ((Engine.infKeys (Engine.expVals scores T)).length : ℝ)
            else 0).sum - 100| ≤ (scores.length : ℝ) * (1 / 200)
        rw [sum_ite_mem, filter_mem_of_sublist_nodup hK hnd, mul_comm,
          div_mul_cancel₀ _ hK0]
        simp only [sub_self, abs_zero]
        positivity
  exact ⟨hPRO.1, hPRO.2, hCJL⟩

/-- Witness for C1 amended on the singleton activation mapping `a := 0`:
the PRO output is non-negative and its sum is within `1 * 0.005` of 100,
and the CJL builder returns `a := 100` with the same bounds. -/
theorem c1_witness :
    (∀ kv ∈ Engine.softmax [("a", 0)] 4, 0 ≤ kv.2) ∧
    |((Engine.softmax [("a", 0)] 4).map Prod.snd).sum - 100| ≤
      (([(("a" : String), (0 : ℝ))]).length : ℝ) * (1 / 200) ∧
    ((∀ kv ∈ [(("a" : String), (100 : ℝ))], 0 ≤ kv.2) ∧
      |(([(("a" : String), (100 : ℝ))]).map Prod.snd).sum - 100| ≤
        (([(("a" : String), (0 : ℝ))]).length : ℝ) * (1 / 200)) := by
  have h := c1_amended [("a", 0)] 4 (by simp) (by simp)
  refine ⟨h.1, h.2.1, ?_⟩
  refine h.2.2 [("a", 0)] [("a", 100)] (by simp) ?_
  have hz : ((0 : ℝ) * 5) = 0 := by ring
  have hp : pyExp ((0 : ℝ) * 5) = some 1 := by
    rw [hz, pyExp, if_neg (by rw [expBound]; norm_num), Real.exp_zero]
  simp only [Scoring.softmax, List.all_cons, List.all_nil, hp, Option.isSome_some,
    Bool.and_self, if_pos, List.map_cons, List.map_nil, Option.getD_some,
    List.sum_cons, List.sum_nil]
  rw [if_neg (by norm_num : ¬((1 : ℝ) + 0 = 0))]
  have hr : round2 ((1 : ℝ) / (1 + 0) * 100) = ((10000 : ℤ) : ℝ) / 100 := by
    refine round2_eq ?_ ?_
    · push_cast
      norm_num
    · push_cast
      norm_num
  rw [hr]
  norm_num

end CareerGuide
